import Mathlib

/-!
# Verification of the declarative-dataflow plan compiler core

A shallow embedding of the plan-to-dataflow compiler of the
`declarative-dataflow` repository (files `src/value/mod.rs`,
`src/plan/mod.rs`, `src/plan/join.rs`, `src/plan/project.rs`,
`src/plan/union.rs`, `src/operators/mod.rs`, `src/sources/csv_file.rs`).

Collections of the differential-dataflow runtime are modelled at a fixed
timestamp as lists of `(row, diff)` pairs; arranged propose traces are
lists of `((key, value), diff)` pairs.  The frontier-advancing
`enter_at` plumbing changes timestamps only, never the data content of a
collection, so it is dropped from the value-level model.  Process aborts
(`panic!`, `expect`, `assert!`, `unimplemented!`) are modelled as
`Except.error`.
-/

namespace DDlow

/-- `Var` — signed variable identifier (`src/plan/mod.rs` uses the crate's
`Var` alias; user variables are non-negative, gensym variables are
negative, see `gensym`). -/
abbrev Var := Int

/-- `Aid` — interned attribute name (`src/value/mod.rs`: `pub type Aid = String`). -/
abbrev Aid := String

/-- `Eid` — unsigned 64-bit entity identifier (`src/value/mod.rs`:
`pub type Eid = u64`), modelled as `Nat`. -/
abbrev Eid := Nat

/-- The `Value` enum of `src/value/mod.rs`.  The `uuid` and `real`
variants sit behind disabled cargo features and are omitted.
`Rational32` is modelled as a numerator/denominator pair of integers. -/
inductive Value where
  | aid (a : Aid)
  | string (s : String)
  | bool (b : Bool)
  | number (n : Int)
  | rational32 (num den : Int)
  | eid (e : Eid)
  | instant (ms : Nat)
deriving DecidableEq, Repr

/-- A propose trace (key to value index) of an attribute, viewed at a
fixed timestamp: `((key, value), diff)` entries. -/
abbrev Trace := List ((Value × Value) × Int)

/-- A materialised tuple stream at a fixed timestamp: `(row, diff)` entries. -/
abbrev Rows := List (List Value × Int)

/-- The `AttributeBinding` carrier variant (crate root; see spec §3):
a pair of variables bound to a named attribute, not yet materialised. -/
structure AttributeBinding where
  vars : Var × Var
  source_attribute : Aid
deriving DecidableEq, Repr

/-- The `CollectionRelation` carrier variant (crate root; see spec §3):
a positional variable schema together with a materialised tuple stream. -/
structure CollectionRelation where
  vars : List Var
  tuples : Rows
deriving DecidableEq, Repr

/-- The `Implemented` sum carried through the compiler
(`Implemented::Attribute` / `Implemented::Collection`). -/
inductive Implemented where
  | attribute (b : AttributeBinding)
  | collection (c : CollectionRelation)
deriving DecidableEq, Repr

/-- The `ImplContext` trace catalog (`src/plan/mod.rs` trait
`ImplContext`), restricted to the accessors the specified operators
consume.  `forward_count` / `validate` accessors exist in the trait but
are unused by the compiled operators under verification. -/
structure Ctx where
  forwardPropose : Aid → Option Trace
  reversePropose : Aid → Option Trace
  globalArrangement : String → Option Rows
  hasAttribute : Aid → Bool
  isUnderconstrained : String → Bool

/-- The value sitting at the position of variable `v` in a row whose
positional schema is `vars` (first occurrence, as `Vec::iter().position`
would find it). -/
def selectVar : List Var → List Value → Var → Option Value
  | [], _, _ => none
  | _ :: _, [], _ => none
  | w :: vars, x :: row, v => if w = v then some x else selectVar vars row v

/-- Modelled from the spec: the key part of `tuples_by_variables`
(`Relation::tuples_by_variables`, crate root, not under `src/`): the
row's values at the target variables, in target order (spec §4.6 (c):
each child is "re-arranged by the target variable list"). -/
def keyOf (vars target : List Var) (row : List Value) : List Value :=
  target.filterMap (selectVar vars row)

/-- Modelled from the spec: the remainder part of `tuples_by_variables`:
the row's values at the positions whose variable is not a target,
preserving the original order (spec §4.6 (c)). -/
def remOf (vars target : List Var) (row : List Value) : List Value :=
  ((vars.zip row).filter fun p => decide (p.1 ∉ target)).map Prod.snd

/-- Modelled from the spec: `Relation::tuples_by_variables` (crate root,
not under `src/`): an arrangement of a collection keyed by the target
column tuple, valued by the remainder columns (spec §4.6 (c)). -/
def tuplesByVariables (c : CollectionRelation) (target : List Var) :
    List ((List Value × List Value) × Int) :=
  c.tuples.map fun p => ((keyOf c.vars target p.1, remOf c.vars target p.1), p.2)

/-- Modelled from the spec: the runtime's join-by-key primitive
(`join_core` of differential dataflow, spec §6) at a fixed timestamp:
for every pair of entries with equal keys emit `out` of the two payloads
with the product of the diffs. -/
def joinKeyed {β κ : Type} [DecidableEq κ] (key : β → κ)
    (out : β → β → List Value) (L R : List (β × Int)) : Rows :=
  L.flatMap fun p => R.flatMap fun q =>
    if key p.1 = key q.1 then [(out p.1 q.1, p.2 * q.2)] else []

/-- `Join::collection_collection` (`src/plan/join.rs` lines 127-188):
result schema is the target list, then the left child's non-target
variables, then the right child's non-target variables; rows are
`key ++ left_remainder ++ right_remainder`. -/
def collection_collection (target : List Var) (l r : CollectionRelation) :
    CollectionRelation :=
  { vars :=
      target ++ (l.vars.filter fun v => decide (v ∉ target))
             ++ (r.vars.filter fun v => decide (v ∉ target)),
    tuples :=
      joinKeyed Prod.fst (fun p q => p.1 ++ p.2 ++ q.2)
        (tuplesByVariables l target) (tuplesByVariables r target) }

/-- One side of `Join::attribute_attribute` (`src/plan/join.rs` lines
56-108): pick forward propose when the target is the binding's first
(entity) variable, reverse propose when it is the second (value)
variable, and abort otherwise; return the carried "other" variable and
the imported trace. -/
def sideArrangement (ctx : Ctx) (target : Var) (b : AttributeBinding) :
    Except String (Var × Trace) :=
  if target = b.vars.1 then
    match ctx.forwardPropose b.source_attribute with
    | none => .error "forward propose trace does not exist"
    | some tr => .ok (b.vars.2, tr)
  else if target = b.vars.2 then
    match ctx.reversePropose b.source_attribute with
    | none => .error "reverse propose trace does not exist"
    | some tr => .ok (b.vars.1, tr)
  else .error "Unbound target variable in Attribute<->Attribute join."

/-- The join closure of `Join::attribute_attribute` (`src/plan/join.rs`
lines 110-117): rows `[key, left_value, right_value]` with multiplied
diffs, one per matching pair. -/
def joinRows (L R : Trace) : Rows :=
  L.flatMap fun p => R.flatMap fun q =>
    if p.1.1 = q.1.1 then [([p.1.1, p.1.2, q.1.2], p.2 * q.2)] else []

/-- `Join::attribute_attribute` (`src/plan/join.rs` lines 41-125):
schema `[target, other_left, other_right]`, tuples from the join of the
two selected arrangements. -/
def attribute_attribute (ctx : Ctx) (target : Var)
    (left right : AttributeBinding) : Except String CollectionRelation := do
  let (lo, ltr) ← sideArrangement ctx target left
  let (ro, rtr) ← sideArrangement ctx target right
  .ok { vars := [target, lo, ro], tuples := joinRows ltr rtr }

/-- `Join::collection_attribute` (`src/plan/join.rs` lines 190-234): the
attribute side is materialised from its forward propose trace as a
two-column `[e, v]` collection, then the join is delegated to
`collection_collection` with the collection argument on the left. -/
def collection_attribute (ctx : Ctx) (target : List Var)
    (left : CollectionRelation) (right : AttributeBinding) :
    Except String CollectionRelation :=
  match ctx.forwardPropose right.source_attribute with
  | none => .error "attribute does not exist"
  | some tr =>
    .ok (collection_collection target left
      { vars := [right.vars.1, right.vars.2],
        tuples := tr.map fun p => ([p.1.1, p.1.2], p.2) })

/-- The carrier dispatch of `Join::implement` (`src/plan/join.rs` lines
345-373), after both children have been compiled.  Note that in the
`Attribute × Collection` case the source passes the right child (the
collection) as the *left* argument of `collection_attribute`. -/
def joinImplemented (ctx : Ctx) (target : List Var) :
    Implemented → Implemented → Except String Implemented
  | .attribute l, .attribute r =>
    match target with
    | [t] => (attribute_attribute ctx t l r).map .collection
    | [_, _] => .error "not implemented"
    | _ => .error "Attribute<->Attribute joins can't target more than two variables."
  | .attribute l, .collection r =>
    (collection_attribute ctx target r l).map .collection
  | .collection l, .attribute r =>
    (collection_attribute ctx target l r).map .collection
  | .collection l, .collection r =>
    .ok (.collection (collection_collection target l r))

/-- The `variables()` accessor of the `Relation` trait on an
`Implemented` carrier (crate root): an attribute binding binds its two
variables in order, a collection binds its schema. -/
def implementedVars : Implemented → List Var
  | .attribute b => [b.vars.1, b.vars.2]
  | .collection c => c.vars

/-- Modelled from the spec: `Relation::projected` on a materialised
collection (crate root, not under `src/`; spec §4.3): the positional
permutation/subsetting of each tuple onto the target variables; an
unbound target variable is a fatal compile-time error. -/
def projectedRows (vars target : List Var) (tuples : Rows) :
    Except String Rows :=
  if target.all fun v => decide (v ∈ vars) then
    .ok (tuples.map fun p => (keyOf vars target p.1, p.2))
  else .error "Unbound variable in projection"

/-- Modelled from the spec: `Relation::projected` on an `Implemented`
carrier; an attribute binding is materialised from its forward propose
trace as `[e, v]` rows first (crate root, not under `src/`). -/
def projected (ctx : Ctx) (r : Implemented) (target : List Var) :
    Except String Rows :=
  match r with
  | .collection c => projectedRows c.vars target c.tuples
  | .attribute b =>
    match ctx.forwardPropose b.source_attribute with
    | none => .error "attribute does not exist"
    | some tr =>
      projectedRows [b.vars.1, b.vars.2] target (tr.map fun p => ([p.1.1, p.1.2], p.2))

/-- The net multiplicity of `row` in a stream at the fixed timestamp. -/
def netCount (row : List Value) (tuples : Rows) : Int :=
  ((tuples.filter fun p => decide (p.1 = row)).map Prod.snd).sum

/-- Modelled from the spec: the runtime's `distinct` primitive
(differential dataflow `Threshold::distinct`, spec §6) at a fixed
timestamp: every row with positive net multiplicity appears exactly
once with diff `+1`. -/
def distinct (tuples : Rows) : Rows :=
  (tuples.map Prod.fst).dedup.filterMap fun row =>
    if 0 < netCount row tuples then some (row, 1) else none

/-- The set-semantics compile-time cargo feature (spec §4.4).  The
feature exists in `src/plan/mod.rs` (it selects the aggregate
implementation); `src/plan/union.rs` contains no `cfg` switch at all. -/
structure Features where
  setSemantics : Bool

/-- The tuple stage of `Union::implement` (`src/plan/union.rs` line 81):
the concatenated projected child streams go through `distinct`
unconditionally — the source has no feature switch here, so the
`Features` argument is ignored exactly as the compiled artifact
ignores it. -/
def unionTuples (_feat : Features) (concatenated : Rows) : Rows :=
  distinct concatenated

/-- The reduced `Plan` enum (`src/plan/mod.rs`): the variants whose
compilation code is part of the verified core.  `Aggregate`, `Hector`,
`Antijoin`, `Filter`, `Transform` and the pull/GraphQL variants are out
of the specified scope (spec §1) and their modules are not part of the
compiled core, so they are omitted from the model. -/
inductive Plan where
  | project (vars : List Var) (plan : Plan)
  | union (vars : List Var) (plans : List Plan)
  | join (vars : List Var) (left right : Plan)
  | negate (plan : Plan)
  | matchA (e : Var) (a : Aid) (v : Var)
  | matchEA (e : Eid) (a : Aid) (v : Var)
  | matchAV (e : Var) (a : Aid) (v : Value)
  | nameExpr (vars : List Var) (name : String)

/-- The per-branch body of `Union::implement` (`src/plan/union.rs` lines
60-75): implement every child with the recursion `recur` and project it
onto the union's variable list, concatenating the results in order. -/
def unionBranches (recur : Plan → Except String Implemented) (ctx : Ctx)
    (target : List Var) : List Plan → Except String Rows
  | [] => .ok []
  | p :: ps => do
    let r ← recur p
    let rows ← projected ctx r target
    let rest ← unionBranches recur ctx target ps
    .ok (rows ++ rest)

/-- One unfolding step of `Plan::implement` (`src/plan/mod.rs` lines
369-521 together with the operator files), with the recursion on child
plans abstracted as `recur`.  `la` is the `local_arrangements` map. -/
def planImplementStep (recur : Plan → Except String Implemented)
    (feat : Features) (ctx : Ctx) (la : String → Option Rows) :
    Plan → Except String Implemented
  | .matchA e a v =>
    .ok (.attribute { vars := (e, v), source_attribute := a })
  | .matchEA me a sym =>
    match ctx.forwardPropose a with
    | none => .error "attribute does not exist"
    | some tr =>
      .ok (.collection
        { vars := [sym],
          tuples := tr.filterMap fun p =>
            if p.1.1 = Value.eid me then some ([p.1.2], p.2) else none })
  | .matchAV sym a mv =>
    match ctx.forwardPropose a with
    | none => .error "attribute does not exist"
    | some tr =>
      .ok (.collection
        { vars := [sym],
          tuples := tr.filterMap fun p =>
            if p.1.2 = mv then some ([p.1.1], p.2) else none })
  | .nameExpr syms name =>
    if ctx.isUnderconstrained name then
      match la name with
      | none => .error "not in relation map"
      | some tuples => .ok (.collection { vars := syms, tuples := tuples })
    else
      match ctx.globalArrangement name with
      | none => .error "not in query map"
      | some tuples => .ok (.collection { vars := syms, tuples := tuples })
  | .project target p => do
    let r ← recur p
    let rows ← projected ctx r target
    .ok (.collection { vars := target, tuples := rows })
  | .negate p => do
    let r ← recur p
    let vs := implementedVars r
    let rows ← projected ctx r vs
    .ok (.collection { vars := vs, tuples := rows.map fun q => (q.1, -q.2) })
  | .union target ps => do
    let concatenated ← unionBranches recur ctx target ps
    .ok (.collection { vars := target, tuples := unionTuples feat concatenated })
  | .join target l r =>
    if target.isEmpty then .error "assertion failed: !self.variables.is_empty()"
    else do
      let li ← recur l
      let ri ← recur r
      joinImplemented ctx target li ri

/-- `Plan::implement`, with a fuel bound on the recursion depth (the
Rust recursion is structural on the plan tree; fuel at least the tree
depth makes the two agree). -/
def planImplement (feat : Features) (ctx : Ctx) (la : String → Option Rows) :
    Nat → Plan → Except String Implemented
  | 0, _ => .error "recursion depth exhausted"
  | fuel + 1, p => planImplementStep (planImplement feat ctx la fuel) feat ctx la p

/-- The two `Binding` variants of the binding algebra (`src/binding.rs`,
crate root, not under `src/`).  Modelled from the spec (§3): an
attribute binding binds a pair of variables to a named attribute, a
constant binding binds a variable to a literal value. -/
inductive Binding where
  | attribute (e : Var) (a : Aid) (v : Var)
  | constant (x : Var) (v : Value)
deriving DecidableEq, Repr

/-- `gensym()` (`src/plan/mod.rs` lines 55, 63-65): the `SYM` counter
starts at `usize::MAX` and decreases; cast to the signed `Var` the
`c`-th fresh variable is `-(1+c)`. -/
def gensymVar (c : Nat) : Var := -(1 + (c : Int))

/-- The union branch of `into_bindings` with the recursion abstracted:
flat-map the children's bindings in order, threading the gensym
counter. -/
def bindingBranches (recur : Plan → Nat → Except String (List Binding × Nat)) :
    List Plan → Nat → Except String (List Binding × Nat)
  | [], c => .ok ([], c)
  | p :: ps, c => do
    let (bs, c') ← recur p c
    let (rest, c'') ← bindingBranches recur ps c'
    .ok (bs ++ rest, c'')

/-- One unfolding step of `Plan::into_bindings` (`src/plan/mod.rs` lines
291-325, `src/plan/join.rs` lines 287-296, `src/plan/union.rs` lines
36-41, `src/plan/project.rs` lines 29-31), threading the global gensym
counter explicitly. -/
def intoBindingsStep (recur : Plan → Nat → Except String (List Binding × Nat)) :
    Plan → Nat → Except String (List Binding × Nat)
  | .matchA e a v, c => .ok ([.attribute e a v], c)
  | .matchEA me a v, c =>
    .ok ([.attribute (gensymVar c) a v, .constant (gensymVar c) (.eid me)], c + 1)
  | .matchAV e a mv, c =>
    .ok ([.attribute e a (gensymVar c), .constant (gensymVar c) mv], c + 1)
  | .nameExpr _ _, _ => .error "not implemented"
  | .project _ p, c => recur p c
  | .negate p, c => recur p c
  | .union _ ps, c => bindingBranches recur ps c
  | .join _ l r, c => do
    let (lb, c') ← recur l c
    let (rb, c'') ← recur r c'
    .ok (lb ++ rb, c'')

/-- `Plan::into_bindings`, with a fuel bound on the recursion depth. -/
def intoBindings : Nat → Plan → Nat → Except String (List Binding × Nat)
  | 0, _, _ => .error "recursion depth exhausted"
  | fuel + 1, p, c => intoBindingsStep (fun q => intoBindings fuel q) p c

/-! ## CardinalityOne (`src/operators/mod.rs`)

The operator arranges its input by the entity key; per key and per batch
it gathers `(value, time, diff)` triples, sorts them by ascending time
(`tuples.sort_by_key`, line 58) and feeds them to a per-key
`state_machine` whose state is `Option<Value>` (lines 72-102).
Timestamps are modelled as `Nat` (any totally ordered instantiation of
the runtime's lattice contract behaves identically at the value level);
values are kept generic.  The `state_machine` runtime primitive (spec
§6) folds the step function over the per-key inputs in order. -/

/-- The comparison `sort_by_key(|(_, t, _)| t)` uses. -/
def timeLe {V : Type} (x y : V × Nat × Int) : Prop := x.2.1 ≤ y.2.1

instance {V : Type} : DecidableRel (@timeLe V) :=
  fun x y => inferInstanceAs (Decidable (x.2.1 ≤ y.2.1))

instance {V : Type} : IsTotal (V × Nat × Int) timeLe :=
  ⟨fun x y => Nat.le_total x.2.1 y.2.1⟩

instance {V : Type} : IsTrans (V × Nat × Int) timeLe :=
  ⟨fun _ _ _ h h' => Nat.le_trans h h'⟩

/-- The per-batch per-key sort by ascending time
(`src/operators/mod.rs` line 58). -/
def sortBatch {V : Type} (l : List (V × Nat × Int)) : List (V × Nat × Int) :=
  List.insertionSort timeLe l

/-- One transition of the `state_machine` closure of `cardinality_one`
(`src/operators/mod.rs` lines 73-100).  The `None`/non-positive case is
the `assert!(diff > 0)` abort. -/
def cardStep {V : Type} (e : V) (s : Option V) (x : V × Nat × Int) :
    Except String (Option V × List ((V × V) × Nat × Int)) :=
  match s with
  | none =>
    if 0 < x.2.2 then .ok (some x.1, [((e, x.1), x.2.1, 1)])
    else .error "Received a retraction of a new key on a CardinalityOne attribute"
  | some old =>
    if 0 < x.2.2 then
      .ok (some x.1, [((e, old), x.2.1, -1), ((e, x.1), x.2.1, 1)])
    else .ok (none, [((e, old), x.2.1, -1)])

/-- The fold of `cardStep` over the per-key inputs in arrival order
(the runtime's `state_machine` primitive, spec §6). -/
def cardRun {V : Type} (e : V) (s : Option V) :
    List (V × Nat × Int) → Except String (Option V × List ((V × V) × Nat × Int))
  | [] => .ok (s, [])
  | x :: xs => do
    let (s', out) ← cardStep e s x
    let (s'', out') ← cardRun e s' xs
    .ok (s'', out ++ out')

/-- `cardinality_one` restricted to one entity key and one batch,
starting from the empty per-key state: sort the gathered triples by
time, then run the state machine. -/
def cardinalityOneKey {V : Type} (e : V) (batch : List (V × Nat × Int)) :
    Except String (Option V × List ((V × V) × Nat × Int)) :=
  cardRun e none (sortBatch batch)

/-- Net multiplicity of the output pair `(e, v)` in the emissions with
time at most `t` — the consolidated downstream collection at `t`. -/
def cardNetAt {V : Type} [DecidableEq V] (t : Nat) (v : V)
    (out : List ((V × V) × Nat × Int)) : Int :=
  ((out.filter fun x => decide (x.1.2 = v) && decide (x.2.1 ≤ t)).map
    fun x => x.2.2).sum

/-- Net multiplicity over all emissions, regardless of time. -/
def cardNetAll {V : Type} [DecidableEq V] (v : V)
    (out : List ((V × V) × Nat × Int)) : Int :=
  ((out.filter fun x => decide (x.1.2 = v)).map fun x => x.2.2).sum

/-- The multiset a per-key state denotes: one copy of the stored value,
or nothing. -/
def stateInd {V : Type} [DecidableEq V] (s : Option V) (v : V) : Int :=
  if s = some v then 1 else 0

/-- Whether the state machine would, running over `l` from state `s`,
reach an input with negative diff while the per-key state is empty
(the fatal `CardinalityOneRetractionOfMissingKey` condition). -/
def hitsMissingRetraction {V : Type} (s : Option V) :
    List (V × Nat × Int) → Bool
  | [] => false
  | x :: xs =>
    match s with
    | none => if x.2.2 < 0 then true else hitsMissingRetraction (some x.1) xs
    | some _ =>
      if 0 < x.2.2 then hitsMissingRetraction (some x.1) xs
      else hitsMissingRetraction none xs

/-! ## CSV source (`src/sources/csv_file.rs`)

The record loop of `CsvFile::source` (lines 73-133).  Records are
modelled as pre-split lists of column strings (the `csv` crate's
reader, header handling and read errors are external); the two `parse`
functions of the Rust standard library are passed as parameters, with
`none` standing for a parse failure (which the source turns into a
panic via `expect`).  The default timestamp is modelled as `0`.  Each
scheduler activation starts with `fuel = 256` and the loop body runs
`fuel -= 1; if fuel <= 0 break;` *before* touching the record that
`iterator.next()` already consumed — so the 256th record of an
activation is consumed and dropped. -/

/-- An emitted source tuple
`(attribute_index, ((eid, value), timestamp, diff))`. -/
abbrev CsvOut := Nat × ((Value × Value) × Nat × Int)

/-- Parsing one schema column of one record
(`src/sources/csv_file.rs` lines 96-109): match on the type hint, index
the record at the column offset, parse per the tag; unsupported tags
and parse failures abort. -/
def parseColumn (pe : String → Option Nat) (pi : String → Option Int)
    (record : List String) (offset : Nat) (hint : Value) :
    Except String Value :=
  match hint with
  | .string _ =>
    match record.get? offset with
    | none => .error "index out of bounds"
    | some s => .ok (.string s)
  | .number _ =>
    match record.get? offset with
    | none => .error "index out of bounds"
    | some s =>
      match pi s with
      | none => .error "not a number"
      | some n => .ok (.number n)
  | .eid _ =>
    match record.get? offset with
    | none => .error "index out of bounds"
    | some s =>
      match pe s with
      | none => .error "not a eid"
      | some e => .ok (.eid e)
  | _ => .error "Only String, Number, and Eid are supported at the moment."

/-- The inner schema loop (`src/sources/csv_file.rs` lines 95-115): one
output tuple per schema entry, tagged with the entry's position. -/
def schemaTuples (pe : String → Option Nat) (pi : String → Option Int)
    (eidv : Value) (record : List String) :
    Nat → List (Nat × Value) → Except String (List CsvOut)
  | _, [] => .ok []
  | j, (offset, hint) :: rest => do
    let v ← parseColumn pe pi record offset hint
    let more ← schemaTuples pe pi eidv record (j + 1) rest
    .ok ((j, ((eidv, v), 0, 1)) :: more)

/-- Processing one record (`src/sources/csv_file.rs` lines 92-118):
records whose datum index is not congruent to the worker index modulo
the worker count are skipped; otherwise column 0 is parsed as `Eid` and
the schema loop emits the tuples. -/
def processRecord (pe : String → Option Nat) (pi : String → Option Int)
    (schema : List (Nat × Value)) (w n : Nat) (idx : Nat)
    (record : List String) : Except String (List CsvOut) :=
  if idx % n = w then
    match record.get? 0 with
    | none => .error "index out of bounds"
    | some s =>
      match pe s with
      | none => .error "not a eid"
      | some e => schemaTuples pe pi (.eid e) record 0 schema
  else .ok []

/-- One scheduler activation (`src/sources/csv_file.rs` lines 81-121):
consume records while fuel lasts; the decrement-then-test order means
the record consumed when `fuel` reaches `1` is dropped without being
processed and without advancing `datum_index`.  Returns the emitted
tuples, the unread rest of the file, and the next datum index. -/
def csvActivation (pe : String → Option Nat) (pi : String → Option Int)
    (schema : List (Nat × Value)) (w n : Nat) :
    Nat → List (List String) → Nat →
    Except String (List CsvOut × List (List String) × Nat)
  | _, [], idx => .ok ([], [], idx)
  | fuel, record :: rest, idx =>
    if fuel - 1 = 0 then .ok ([], rest, idx)
    else do
      let outs ← processRecord pe pi schema w n idx record
      let (more, leftover, idx') ←
        csvActivation pe pi schema w n (fuel - 1) rest (idx + 1)
      .ok (outs ++ more, leftover, idx')

/-- Repeated activations until the reader is done
(`src/sources/csv_file.rs` lines 73-132, re-activation via
`activator.activate()`), bounded by a gas count on the number of
activations (each activation on a non-empty rest consumes at least one
record, so `records.length + 1` activations always finish the file). -/
def csvRunGas (pe : String → Option Nat) (pi : String → Option Int)
    (schema : List (Nat × Value)) (w n : Nat) :
    Nat → List (List String) → Nat → Except String (List CsvOut)
  | 0, _, _ => .error "activation gas exhausted"
  | _ + 1, [], _ => .ok []
  | gas + 1, record :: rest, idx => do
    let (outs, leftover, idx') ←
      csvActivation pe pi schema w n 256 (record :: rest) idx
    let more ← csvRunGas pe pi schema w n gas leftover idx'
    .ok (outs ++ more)

/-- `CsvFile::source` on one worker: run activations over the whole
record list starting at datum index 0. -/
def csvSource (pe : String → Option Nat) (pi : String → Option Int)
    (schema : List (Nat × Value)) (w n : Nat)
    (records : List (List String)) : Except String (List CsvOut) :=
  csvRunGas pe pi schema w n (records.length + 1) records 0

/-! ## Column reordering used to state join commutativity -/

/-- Reorders a row of shape `key ++ middle ++ tail` (with `|key| = k`,
`|middle| = lb`) into `key ++ tail ++ middle`: the column permutation
that swaps the two remainder blocks of a join output. -/
def swapCols {α : Type} (k lb : Nat) (row : List α) : List α :=
  row.take k ++ row.drop (k + lb) ++ (row.drop k).take lb

/-- `swapCols` applied to every row of a stream, keeping diffs. -/
def remainderSwap (k lb : Nat) (p : List Value × Int) : List Value × Int :=
  (swapCols k lb p.1, p.2)

/-- The compatibility conditions of spec §3 on a join child: a
collection carrier has tuples whose arity matches its schema, and binds
every target variable; an attribute carrier needs nothing. -/
def compatible (target : List Var) : Implemented → Prop
  | .attribute _ => True
  | .collection c =>
    (∀ p ∈ c.tuples, p.1.length = c.vars.length) ∧ ∀ v ∈ target, v ∈ c.vars

instance (target : List Var) : (i : Implemented) → Decidable (compatible target i)
  | .attribute _ => isTrue trivial
  | .collection _ => inferInstanceAs (Decidable (_ ∧ _))

/-- The sense in which two join outcomes agree up to reordering of the
remainder columns: both abort, or both produce collections whose
schemas and tuple multisets agree after swapping the two remainder
blocks of the second. -/
def joinOutcomesMatch (o1 o2 : Except String Implemented) : Prop :=
  ((∃ m1, o1 = .error m1) ∧ (∃ m2, o2 = .error m2)) ∨
  (∃ r1 r2 k lb, o1 = .ok (.collection r1) ∧ o2 = .ok (.collection r2) ∧
    r1.vars = swapCols k lb r2.vars ∧
    (↑r1.tuples : Multiset (List Value × Int)) =
      Multiset.map (remainderSwap k lb) ↑r2.tuples)

/-! ## Concrete catalogs used in closed instances -/

/-- A catalog with no attributes and no rules. -/
def ctxEmpty : Ctx :=
  { forwardPropose := fun _ => none,
    reversePropose := fun _ => none,
    globalArrangement := fun _ => none,
    hasAttribute := fun _ => false,
    isUnderconstrained := fun _ => false }

/-- A catalog with a single attribute `"a"` holding the fact `(1, 10)`. -/
def ctxA : Ctx :=
  { forwardPropose := fun a => if a = "a" then some [((.eid 1, .eid 10), 1)] else none,
    reversePropose := fun a => if a = "a" then some [((.eid 10, .eid 1), 1)] else none,
    globalArrangement := fun _ => none,
    hasAttribute := fun a => a = "a",
    isUnderconstrained := fun _ => false }

/-- A catalog with a single attribute `"color"` holding the facts
`(1, "red")` and `(2, "red")` (scenario S3 of the spec). -/
def ctxColor : Ctx :=
  { forwardPropose := fun a =>
      if a = "color" then
        some [((.eid 1, .string "red"), 1), ((.eid 2, .string "red"), 1)]
      else none,
    reversePropose := fun _ => none,
    globalArrangement := fun _ => none,
    hasAttribute := fun a => a = "color",
    isUnderconstrained := fun _ => false }

end DDlow

deriving instance DecidableEq for Except

namespace DDlow

/-! ## Claim theorems -/

/-- C1: For an Attribute-by-Attribute join over one target variable `t`,
each side imports the forward-propose trace of its attribute when `t`
is the side's first (entity) variable and the reverse-propose trace
when `t` is the side's second (value) variable, aborts when `t` is
neither, joins the two arrangements by common key, and returns a
collection with variable schema `[t, other_left, other_right]` whose
tuples are `[key, left_value, right_value]` (`joinRows`). -/
theorem attribute_attribute_trace_selection :
    ∀ (ctx : Ctx) (t : Var) (l r : AttributeBinding) (ltr rtr : Trace),
    (t = l.vars.1 → ctx.forwardPropose l.source_attribute = some ltr →
     t = r.vars.1 → ctx.forwardPropose r.source_attribute = some rtr →
     attribute_attribute ctx t l r =
       .ok { vars := [t, l.vars.2, r.vars.2], tuples := joinRows ltr rtr }) ∧
    (t = l.vars.1 → ctx.forwardPropose l.source_attribute = some ltr →
     t ≠ r.vars.1 → t = r.vars.2 → ctx.reversePropose r.source_attribute = some rtr →
     attribute_attribute ctx t l r =
       .ok { vars := [t, l.vars.2, r.vars.1], tuples := joinRows ltr rtr }) ∧
    (t ≠ l.vars.1 → t = l.vars.2 → ctx.reversePropose l.source_attribute = some ltr →
     t = r.vars.1 → ctx.forwardPropose r.source_attribute = some rtr →
     attribute_attribute ctx t l r =
       .ok { vars := [t, l.vars.1, r.vars.2], tuples := joinRows ltr rtr }) ∧
    (t ≠ l.vars.1 → t = l.vars.2 → ctx.reversePropose l.source_attribute = some ltr →
     t ≠ r.vars.1 → t = r.vars.2 → ctx.reversePropose r.source_attribute = some rtr →
     attribute_attribute ctx t l r =
       .ok { vars := [t, l.vars.1, r.vars.1], tuples := joinRows ltr rtr }) ∧
    (t ≠ l.vars.1 → t ≠ l.vars.2 →
     attribute_attribute ctx t l r =
       .error "Unbound target variable in Attribute<->Attribute join.") ∧
    (t = l.vars.1 → ctx.forwardPropose l.source_attribute = some ltr →
     t ≠ r.vars.1 → t ≠ r.vars.2 →
     attribute_attribute ctx t l r =
       .error "Unbound target variable in Attribute<->Attribute join.") := by
  intro ctx t l r ltr rtr
  refine ⟨?_, ?_, ?_, ?_, ?_, ?_⟩ <;>
    intros <;>
    simp_all [attribute_attribute, sideArrangement, Except.bind] <;>
    rfl

/-- Closed instance of `attribute_attribute_trace_selection` (both sides
forward) at the `ctxA` catalog. -/
theorem attribute_attribute_trace_selection_witness :
    attribute_attribute ctxA 0 { vars := (0, 1), source_attribute := "a" }
      { vars := (0, 2), source_attribute := "a" } =
      .ok { vars := [0, 1, 2],
            tuples := joinRows [((.eid 1, .eid 10), 1)] [((.eid 1, .eid 10), 1)] } :=
  (attribute_attribute_trace_selection ctxA 0
    { vars := (0, 1), source_attribute := "a" }
    { vars := (0, 2), source_attribute := "a" }
    [((.eid 1, .eid 10), 1)] [((.eid 1, .eid 10), 1)]).1 rfl rfl rfl rfl

/-- C2 counterexample: joining an attribute left child (variables
`(0, 1)` on `"a"`) with a collection right child (schema `[0, 2]`) over
target `[0]` yields schema `[0, 2, 1]` — the right child's non-target
variable comes first — not the claimed `T ++ (left \ T) ++ (right \ T)
= [0, 1, 2]`. -/
theorem attributeCollection_schema_order_cex :
    joinImplemented ctxA [0]
      (.attribute { vars := (0, 1), source_attribute := "a" })
      (.collection { vars := [0, 2], tuples := [([.eid 1, .eid 5], 1)] }) =
      .ok (.collection { vars := [0, 2, 1],
                         tuples := [([.eid 1, .eid 5, .eid 10], 1)] }) ∧
    ([0, 2, 1] : List Var) ≠ [0] ++ [1] ++ [2] :=
  ⟨rfl, by decide⟩

/-- C2 amended: whenever one child is an attribute and the other a
collection, the attribute side is materialised as the two-column
`[e, v]` collection from its forward-propose trace and the join is
delegated to `collection_collection` with the *collection* child always
passed as the left argument; the result schema is therefore the target
list, then the collection child's non-target variables, then the
attribute side's non-target variables. -/
theorem attributeCollection_delegation_schema :
    ∀ (ctx : Ctx) (T : List Var) (a : AttributeBinding)
      (c d : CollectionRelation) (tr : Trace),
    joinImplemented ctx T (.attribute a) (.collection c) =
      (collection_attribute ctx T c a).map .collection ∧
    joinImplemented ctx T (.collection c) (.attribute a) =
      (collection_attribute ctx T c a).map .collection ∧
    (ctx.forwardPropose a.source_attribute = some tr →
      collection_attribute ctx T c a =
        .ok (collection_collection T c
          { vars := [a.vars.1, a.vars.2],
            tuples := tr.map fun p => ([p.1.1, p.1.2], p.2) })) ∧
    (collection_collection T c d).vars =
      T ++ (c.vars.filter fun v => decide (v ∉ T))
        ++ (d.vars.filter fun v => decide (v ∉ T)) := by
  intro ctx T a c d tr
  refine ⟨rfl, rfl, fun h => ?_, rfl⟩
  simp [collection_attribute, h]

/-- Closed instance of `attributeCollection_delegation_schema` at the
`ctxA` catalog. -/
theorem attributeCollection_delegation_schema_witness :
    collection_attribute ctxA [0]
      { vars := [0, 2], tuples := [([.eid 1, .eid 5], 1)] }
      { vars := (0, 1), source_attribute := "a" } =
      .ok (collection_collection [0]
        { vars := [0, 2], tuples := [([.eid 1, .eid 5], 1)] }
        { vars := [0, 1], tuples := [([.eid 1, .eid 10], 1)] }) :=
  (attributeCollection_delegation_schema ctxA [0]
    { vars := (0, 1), source_attribute := "a" }
    { vars := [0, 2], tuples := [([.eid 1, .eid 5], 1)] }
    { vars := [0, 1], tuples := [] }
    [((.eid 1, .eid 10), 1)]).2.2.1 rfl

/-- C6 counterexample: compiling the pattern leaf `MatchA` against a
catalog with no attributes succeeds — it returns the deferred attribute
binding without consulting the catalog (`src/plan/mod.rs` lines
412-419), so a non-existent attribute is *not* a compile-time error for
`MatchA`. -/
theorem matchA_missing_attribute_no_abort_cex :
    planImplement { setSemantics := true } ctxEmpty (fun _ => none) 1
      (.matchA 0 "age" 1) =
      .ok (.attribute { vars := (0, 1), source_attribute := "age" }) ∧
    ctxEmpty.hasAttribute "age" = false ∧
    ctxEmpty.forwardPropose "age" = none :=
  ⟨rfl, rfl, rfl⟩

/-- C6 amended: among the pattern leaves only `MatchEA` and `MatchAV`
abort at compile time when the referenced attribute has no
forward-propose trace; `MatchA` succeeds unconditionally, returning the
deferred attribute binding (the error would only surface later, when a
consumer imports the trace). -/
theorem pattern_leaves_missing_attribute :
    ∀ (feat : Features) (ctx : Ctx) (la : String → Option Rows) (fuel : Nat)
      (e sym : Var) (me : Eid) (a : Aid) (mv : Value),
    ctx.forwardPropose a = none →
    planImplement feat ctx la (fuel + 1) (.matchEA me a sym) =
      .error "attribute does not exist" ∧
    planImplement feat ctx la (fuel + 1) (.matchAV sym a mv) =
      .error "attribute does not exist" ∧
    planImplement feat ctx la (fuel + 1) (.matchA e a sym) =
      .ok (.attribute { vars := (e, sym), source_attribute := a }) := by
  intro feat ctx la fuel e sym me a mv h
  refine ⟨?_, ?_, rfl⟩ <;> simp [planImplement, planImplementStep, h]

/-- Closed instance of `pattern_leaves_missing_attribute` at the empty
catalog. -/
theorem pattern_leaves_missing_attribute_witness :
    planImplement { setSemantics := true } ctxEmpty (fun _ => none) 1
      (.matchEA 7 "age" 0) = .error "attribute does not exist" :=
  (pattern_leaves_missing_attribute { setSemantics := true } ctxEmpty
    (fun _ => none) 0 0 0 7 "age" (.bool true) rfl).1

/-- C7 counterexample: joining two collections that share the non-target
variable `1` (schemas `[0, 1]` and `[0, 1]`, target `[0]`) produces the
variable list `[0, 1, 1]`, which is not duplicate-free. -/
theorem join_variables_duplicate_cex :
    (collection_collection [0]
      { vars := [0, 1], tuples := [([.eid 1, .eid 5], 1)] }
      { vars := [0, 1], tuples := [([.eid 1, .eid 6], 1)] }).vars = [0, 1, 1] ∧
    ¬ (collection_collection [0]
      { vars := [0, 1], tuples := [([.eid 1, .eid 5], 1)] }
      { vars := [0, 1], tuples := [([.eid 1, .eid 6], 1)] }).vars.Nodup :=
  ⟨rfl, by decide⟩

/-- C4 counterexample: with the set-semantics feature *disabled* the
compiled union of two identical `MatchAV` branches over the S3 input
still deduplicates: the concatenation of the projected branches has
four entries, the union's output has two entries with diff `+1` — the
`distinct` is not omitted in multiset-semantic mode
(`src/plan/union.rs` line 81 has no feature switch). -/
theorem union_distinct_not_flag_gated_cex :
    planImplement { setSemantics := false } ctxColor (fun _ => none) 2
      (.union [0] [.matchAV 0 "color" (.string "red"),
                   .matchAV 0 "color" (.string "red")]) =
      .ok (.collection { vars := [0],
                         tuples := [([.eid 1], 1), ([.eid 2], 1)] }) ∧
    unionBranches
      (planImplement { setSemantics := false } ctxColor (fun _ => none) 1)
      ctxColor [0]
      [.matchAV 0 "color" (.string "red"), .matchAV 0 "color" (.string "red")] =
      .ok [([.eid 1], 1), ([.eid 2], 1), ([.eid 1], 1), ([.eid 2], 1)] ∧
    ([([Value.eid 1], (1 : Int)), ([.eid 2], 1)] : Rows) ≠
      [([.eid 1], 1), ([.eid 2], 1), ([.eid 1], 1), ([.eid 2], 1)] :=
  ⟨rfl, rfl, by decide⟩

/-- C4 amended: `Union::implement` concatenates the children's projected
streams and applies `distinct` unconditionally — the set-semantics
feature flag does not change the union operator, so multiset-semantic
compilation behaves identically; under the (always applied) `distinct`,
rows with positive net multiplicity appear exactly once with diff `+1`. -/
theorem union_distinct_unconditional :
    (∀ (f f' : Features) (rows : Rows), unionTuples f rows = unionTuples f' rows) ∧
    (∀ (rows : Rows) (p : List Value × Int), p ∈ distinct rows → p.2 = 1) ∧
    (∀ rows : Rows, ((distinct rows).map Prod.fst).Nodup) ∧
    (∀ (rows : Rows) (row : List Value),
      (row, (1 : Int)) ∈ distinct rows ↔
        row ∈ rows.map Prod.fst ∧ 0 < netCount row rows) := by
  refine ⟨fun _ _ _ => rfl, ?_, ?_, ?_⟩
  · intro rows p hp
    rcases List.mem_filterMap.mp hp with ⟨row, _, hrow⟩
    by_cases h : 0 < netCount row rows <;> simp [h] at hrow
    subst hrow
    rfl
  · intro rows
    have hinj : ∀ (a a' : List Value) (b : List Value × Int),
        (b ∈ if 0 < netCount a rows then some ((a, 1) : List Value × Int) else none) →
        (b ∈ if 0 < netCount a' rows then some ((a', 1) : List Value × Int) else none) →
        a = a' := by
      intro a a' b hb hb'
      by_cases h : 0 < netCount a rows <;> simp [h] at hb
      by_cases h' : 0 < netCount a' rows <;> simp [h'] at hb'
      exact congrArg Prod.fst (hb.trans hb'.symm)
    refine ((List.nodup_dedup _).filterMap hinj).map_on ?_
    intro x hx y hy hxy
    rcases List.mem_filterMap.mp hx with ⟨a, _, ha⟩
    rcases List.mem_filterMap.mp hy with ⟨a', _, ha'⟩
    by_cases h : 0 < netCount a rows <;> simp [h] at ha
    by_cases h' : 0 < netCount a' rows <;> simp [h'] at ha'
    subst ha
    subst ha'
    simp only [Prod.mk.injEq]
    exact ⟨hxy, trivial⟩
  · intro rows row
    constructor
    · intro h
      rcases List.mem_filterMap.mp h with ⟨a, ha, hrow⟩
      by_cases hc : 0 < netCount a rows <;> simp [hc] at hrow
      subst hrow
      exact ⟨List.mem_dedup.mp ha, hc⟩
    · intro h
      exact List.mem_filterMap.mpr
        ⟨row, List.mem_dedup.mpr h.1, by simp [h.2]⟩

/-- Closed instance of `union_distinct_unconditional`: the duplicated
row of weight two appears once with diff one. -/
theorem union_distinct_unconditional_witness :
    ([Value.eid 1], (1 : Int)) ∈
      distinct [([Value.eid 1], 1), ([Value.eid 1], 1)] :=
  (union_distinct_unconditional.2.2.2
    [([Value.eid 1], 1), ([Value.eid 1], 1)] [Value.eid 1]).mpr (by decide)

/-- C10: `into_bindings` — `MatchA` yields one attribute binding over
its two variables; `MatchEA` / `MatchAV` yield one attribute binding
over a freshly gensym'd variable plus one constant binding fixing that
variable to the literal; `Join`, `Union`, `Project` and `Negate` yield
the concatenation of their children's bindings (with the gensym counter
threaded left to right). -/
theorem into_bindings_flat_spec :
    ∀ (fuel c : Nat) (e sym : Var) (me : Eid) (a : Aid) (mv : Value)
      (T vs : List Var) (l r p q : Plan) (ps : List Plan),
    intoBindings (fuel + 1) (.matchA e a sym) c = .ok ([.attribute e a sym], c) ∧
    intoBindings (fuel + 1) (.matchEA me a sym) c =
      .ok ([.attribute (gensymVar c) a sym,
            .constant (gensymVar c) (.eid me)], c + 1) ∧
    intoBindings (fuel + 1) (.matchAV e a mv) c =
      .ok ([.attribute e a (gensymVar c),
            .constant (gensymVar c) mv], c + 1) ∧
    intoBindings (fuel + 1) (.join T l r) c = (do
      let (lb, c') ← intoBindings fuel l c
      let (rb, c'') ← intoBindings fuel r c'
      .ok (lb ++ rb, c'')) ∧
    intoBindings (fuel + 1) (.union vs ps) c =
      bindingBranches (fun s => intoBindings fuel s) ps c ∧
    bindingBranches (fun s => intoBindings fuel s) (q :: ps) c = (do
      let (bs, c') ← intoBindings fuel q c
      let (rest, c'') ← bindingBranches (fun s => intoBindings fuel s) ps c'
      .ok (bs ++ rest, c'')) ∧
    intoBindings (fuel + 1) (.project vs p) c = intoBindings fuel p c ∧
    intoBindings (fuel + 1) (.negate p) c = intoBindings fuel p c :=
  fun _ _ _ _ _ _ _ _ _ _ _ _ _ _ =>
    ⟨rfl, rfl, rfl, rfl, rfl, rfl, rfl, rfl⟩

theorem except_ok_bind {ε α β : Type} (a : α) (f : α → Except ε β) :
    (Except.ok a >>= f) = f a := rfl

theorem except_error_bind {ε α β : Type} (m : ε) (f : α → Except ε β) :
    ((Except.error m : Except ε α) >>= f) = Except.error m := rfl

theorem except_isOk_ok {ε α : Type} (a : α) :
    (Except.ok a : Except ε α).isOk = true := rfl

theorem except_isOk_error {ε α : Type} (m : ε) :
    (Except.error m : Except ε α).isOk = false := rfl

/-- Unfolding `cardRun` on a cons whose first step succeeds. -/
theorem cardRun_cons_ok {V : Type} {e : V} {s s' : Option V}
    {x : V × Nat × Int} {out : List ((V × V) × Nat × Int)}
    {xs : List (V × Nat × Int)}
    (h : cardStep e s x = .ok (s', out)) :
    cardRun e s (x :: xs) =
      (cardRun e s' xs).map fun p => (p.1, out ++ p.2) := by
  show (cardStep e s x >>= fun d => cardRun e d.1 xs >>= fun d1 =>
    Except.ok (d1.1, d.2 ++ d1.2)) = _
  rw [h, except_ok_bind]
  rcases cardRun e s' xs with m | p
  · rfl
  · rfl

/-- Unfolding `cardRun` on a cons whose first step aborts. -/
theorem cardRun_cons_err {V : Type} {e : V} {s : Option V}
    {x : V × Nat × Int} {m : String} {xs : List (V × Nat × Int)}
    (h : cardStep e s x = .error m) :
    cardRun e s (x :: xs) = .error m := by
  show (cardStep e s x >>= fun d => cardRun e d.1 xs >>= fun d1 =>
    Except.ok (d1.1, d.2 ++ d1.2)) = _
  rw [h, except_error_bind]

theorem except_isOk_map {ε α β : Type} (f : α → β) (x : Except ε α) :
    (x.map f).isOk = x.isOk := by
  rcases x with m | a <;> rfl

/-- C5: the state machine of `cardinality_one` aborts exactly when an
update with negative diff arrives for a key whose per-key state is
empty; on inputs with no zero diffs (differential batches are
consolidated, so zero diffs never reach the operator) every other input
shape runs to completion. -/
theorem cardinalityOne_abort_iff_retraction_of_missing_key :
    ∀ {V : Type} (e : V) (s : Option V) (l : List (V × Nat × Int)),
    (∀ x ∈ l, x.2.2 ≠ 0) →
    ((cardRun e s l).isOk = false ↔ hitsMissingRetraction s l = true) := by
  intro V e s l
  induction l generalizing s with
  | nil => intro _; simp [cardRun, hitsMissingRetraction, except_isOk_ok]
  | cons x xs ih =>
    intro hnz
    have hx : x.2.2 ≠ 0 := hnz x (List.mem_cons_self x xs)
    have hxs := fun y hy => hnz y (List.mem_cons_of_mem x hy)
    cases s with
    | none =>
      by_cases hd : 0 < x.2.2
      · have hneg : ¬ x.2.2 < 0 := by omega
        have hstep : cardStep e none x = .ok (some x.1, [((e, x.1), x.2.1, 1)]) := by
          simp [cardStep, hd]
        rw [cardRun_cons_ok hstep, except_isOk_map]
        have hh : hitsMissingRetraction none (x :: xs) =
            hitsMissingRetraction (some x.1) xs := by
          simp [hitsMissingRetraction, hneg]
        rw [hh]
        exact ih (some x.1) hxs
      · have hneg : x.2.2 < 0 := by omega
        have hstep : cardStep e none x =
            .error "Received a retraction of a new key on a CardinalityOne attribute" := by
          simp [cardStep, hd]
        rw [cardRun_cons_err hstep]
        simp [hitsMissingRetraction, hneg, except_isOk_error]
    | some old =>
      by_cases hd : 0 < x.2.2
      · have hstep : cardStep e (some old) x =
            .ok (some x.1, [((e, old), x.2.1, -1), ((e, x.1), x.2.1, 1)]) := by
          simp [cardStep, hd]
        rw [cardRun_cons_ok hstep, except_isOk_map]
        have hh : hitsMissingRetraction (some old) (x :: xs) =
            hitsMissingRetraction (some x.1) xs := by
          simp [hitsMissingRetraction, hd]
        rw [hh]
        exact ih (some x.1) hxs
      · have hstep : cardStep e (some old) x = .ok (none, [((e, old), x.2.1, -1)]) := by
          simp [cardStep, hd]
        rw [cardRun_cons_ok hstep, except_isOk_map]
        have hh : hitsMissingRetraction (some old) (x :: xs) =
            hitsMissingRetraction none xs := by
          simp [hitsMissingRetraction, hd]
        rw [hh]
        exact ih none hxs

/-- Closed instance of
`cardinalityOne_abort_iff_retraction_of_missing_key`: a lone retraction
of a never-seen key aborts. -/
theorem cardinalityOne_abort_witness :
    (cardRun (1 : Nat) none [(7, 0, -1)]).isOk = false :=
  (cardinalityOne_abort_iff_retraction_of_missing_key 1 none [(7, 0, -1)]
    (by decide)).mpr (by decide)

theorem except_map_eq_ok {ε α β : Type} {f : α → β} {x : Except ε α} {b : β} :
    x.map f = .ok b ↔ ∃ a, x = .ok a ∧ f a = b := by
  rcases x with m | a
  · simp [Except.map]
  · simp [Except.map]

/-- Net multiplicity distributes over concatenated emissions. -/
theorem cardNetAll_append {V : Type} [DecidableEq V] (v : V)
    (a b : List ((V × V) × Nat × Int)) :
    cardNetAll v (a ++ b) = cardNetAll v a + cardNetAll v b := by
  simp [cardNetAll, List.filter_append]

/-- Net multiplicity of a single emission. -/
theorem cardNetAll_single {V : Type} [DecidableEq V] (v e w : V)
    (ts : Nat) (d : Int) :
    cardNetAll v [((e, w), ts, d)] = if w = v then d else 0 := by
  by_cases h : w = v <;> simp [cardNetAll, h]

/-- A successful run over an appended input decomposes into two
successful runs with concatenated emissions. -/
theorem cardRun_append {V : Type} (e : V) (s : Option V)
    (l₁ l₂ : List (V × Nat × Int)) (s₂ : Option V)
    (out : List ((V × V) × Nat × Int))
    (h : cardRun e s (l₁ ++ l₂) = .ok (s₂, out)) :
    ∃ s₁ o₁ o₂, cardRun e s l₁ = .ok (s₁, o₁) ∧
      cardRun e s₁ l₂ = .ok (s₂, o₂) ∧ out = o₁ ++ o₂ := by
  induction l₁ generalizing s out with
  | nil =>
    exact ⟨s, [], out, rfl, h, rfl⟩
  | cons x xs ih =>
    rcases hstep : cardStep e s x with m | ⟨s', o⟩
    · rw [List.cons_append, cardRun_cons_err hstep] at h
      cases h
    · rw [List.cons_append, cardRun_cons_ok hstep] at h
      rcases except_map_eq_ok.mp h with ⟨⟨sm, om⟩, hm, hout⟩
      simp only [Prod.mk.injEq] at hout
      obtain ⟨hs, ho⟩ := hout
      subst hs
      rcases ih s' om hm with ⟨s₁, o₁, o₂, h1, h2, ho'⟩
      refine ⟨s₁, o ++ o₁, o₂, ?_, h2, ?_⟩
      · rw [cardRun_cons_ok hstep, h1]
        rfl
      · rw [← ho, ho', List.append_assoc]

/-- The net emission count of a successful run: the run transforms the
multiset denoted by the initial state into the one denoted by the final
state. -/
theorem cardRun_net {V : Type} [DecidableEq V] (e : V) (s : Option V)
    (l : List (V × Nat × Int)) (s' : Option V)
    (out : List ((V × V) × Nat × Int))
    (h : cardRun e s l = .ok (s', out)) :
    ∀ v, cardNetAll v out = stateInd s' v - stateInd s v := by
  induction l generalizing s out with
  | nil =>
    intro v
    have h' := Except.ok.inj h
    simp only [Prod.mk.injEq] at h'
    obtain ⟨hs, ho⟩ := h'
    subst hs
    rw [← ho]
    simp [cardNetAll]
  | cons x xs ih =>
    intro v
    cases s with
    | none =>
      by_cases hd : 0 < x.2.2
      · have hstep : cardStep e none x = .ok (some x.1, [((e, x.1), x.2.1, 1)]) := by
          simp [cardStep, hd]
        rw [cardRun_cons_ok hstep] at h
        rcases except_map_eq_ok.mp h with ⟨⟨st, ot⟩, hm, hout⟩
        simp only [Prod.mk.injEq] at hout
        obtain ⟨hs, ho⟩ := hout
        subst hs
        rw [← ho, cardNetAll_append, cardNetAll_single, ih (some x.1) ot hm v]
        by_cases hv : x.1 = v <;> simp [stateInd, hv]
      · have hstep : cardStep e none x =
            .error "Received a retraction of a new key on a CardinalityOne attribute" := by
          simp [cardStep, hd]
        rw [cardRun_cons_err hstep] at h
        cases h
    | some old =>
      by_cases hd : 0 < x.2.2
      · have hstep : cardStep e (some old) x =
            .ok (some x.1, [((e, old), x.2.1, -1), ((e, x.1), x.2.1, 1)]) := by
          simp [cardStep, hd]
        rw [cardRun_cons_ok hstep] at h
        rcases except_map_eq_ok.mp h with ⟨⟨st, ot⟩, hm, hout⟩
        simp only [Prod.mk.injEq] at hout
        obtain ⟨hs, ho⟩ := hout
        subst hs
        have hsplit : ([((e, old), x.2.1, -1), ((e, x.1), x.2.1, 1)]
            : List ((V × V) × Nat × Int)) =
            [((e, old), x.2.1, -1)] ++ [((e, x.1), x.2.1, 1)] := rfl
        rw [← ho, hsplit, List.append_assoc, cardNetAll_append, cardNetAll_append,
          cardNetAll_single, cardNetAll_single, ih (some x.1) ot hm v]
        by_cases hv : x.1 = v <;> by_cases hov : old = v <;>
          simp [stateInd, hv, hov] <;> ring
      · have hstep : cardStep e (some old) x =
            .ok (none, [((e, old), x.2.1, -1)]) := by
          simp [cardStep, hd]
        rw [cardRun_cons_ok hstep] at h
        rcases except_map_eq_ok.mp h with ⟨⟨st, ot⟩, hm, hout⟩
        simp only [Prod.mk.injEq] at hout
        obtain ⟨hs, ho⟩ := hout
        subst hs
        rw [← ho, cardNetAll_append, cardNetAll_single, ih none ot hm v]
        by_cases hov : old = v
        · simp [stateInd, hov]
          ring
        · simp [stateInd, hov]

/-- Every emission of a successful run carries the timestamp of one of
the inputs. -/
theorem cardRun_times {V : Type} (e : V) (s : Option V)
    (l : List (V × Nat × Int)) (s' : Option V)
    (out : List ((V × V) × Nat × Int))
    (h : cardRun e s l = .ok (s', out)) :
    ∀ y ∈ out, ∃ x ∈ l, y.2.1 = x.2.1 := by
  induction l generalizing s out with
  | nil =>
    have h' := Except.ok.inj h
    simp only [Prod.mk.injEq] at h'
    obtain ⟨_, ho⟩ := h'
    rw [← ho]
    intro y hy
    cases hy
  | cons x xs ih =>
    rcases hstep : cardStep e s x with m | ⟨sm, om⟩
    · rw [cardRun_cons_err hstep] at h
      cases h
    · rw [cardRun_cons_ok hstep] at h
      rcases except_map_eq_ok.mp h with ⟨⟨st, ot⟩, hm, hout⟩
      simp only [Prod.mk.injEq] at hout
      obtain ⟨hs, ho⟩ := hout
      subst hs
      have homem : ∀ y ∈ om, y.2.1 = x.2.1 := by
        intro y hy
        cases s with
        | none =>
          by_cases hd : 0 < x.2.2
          · have : cardStep e none x = .ok (some x.1, [((e, x.1), x.2.1, 1)]) := by
              simp [cardStep, hd]
            rw [this] at hstep
            obtain ⟨_, hom⟩ : some x.1 = sm ∧ [((e, x.1), x.2.1, 1)] = om := by
              have hh := Except.ok.inj hstep
              simp only [Prod.mk.injEq] at hh
              exact hh
            rw [← hom] at hy
            rw [List.mem_singleton] at hy
            rw [hy]
          · have : cardStep e none x =
                .error "Received a retraction of a new key on a CardinalityOne attribute" := by
              simp [cardStep, hd]
            rw [this] at hstep
            cases hstep
        | some old =>
          by_cases hd : 0 < x.2.2
          · have : cardStep e (some old) x =
                .ok (some x.1, [((e, old), x.2.1, -1), ((e, x.1), x.2.1, 1)]) := by
              simp [cardStep, hd]
            rw [this] at hstep
            obtain ⟨_, hom⟩ : some x.1 = sm ∧
                [((e, old), x.2.1, -1), ((e, x.1), x.2.1, 1)] = om := by
              have hh := Except.ok.inj hstep
              simp only [Prod.mk.injEq] at hh
              exact hh
            rw [← hom] at hy
            rcases List.mem_cons.mp hy with h1 | h1
            · rw [h1]
            · rw [List.mem_singleton] at h1
              rw [h1]
          · have : cardStep e (some old) x = .ok (none, [((e, old), x.2.1, -1)]) := by
              simp [cardStep, hd]
            rw [this] at hstep
            obtain ⟨_, hom⟩ : none = sm ∧ [((e, old), x.2.1, -1)] = om := by
              have hh := Except.ok.inj hstep
              simp only [Prod.mk.injEq] at hh
              exact hh
            rw [← hom] at hy
            rw [List.mem_singleton] at hy
            rw [hy]
      intro y hy
      rw [← ho] at hy
      rcases List.mem_append.mp hy with hy1 | hy2
      · exact ⟨x, List.mem_cons_self x xs, homem y hy1⟩
      · rcases ih sm ot hm y hy2 with ⟨z, hz, htz⟩
        exact ⟨z, List.mem_cons_of_mem x hz, htz⟩

/-- In a time-sorted list, everything past the `≤ t` prefix has
timestamp greater than `t`. -/
theorem sorted_dropWhile_time {V : Type} (t : Nat)
    (l : List (V × Nat × Int)) (hs : List.Sorted timeLe l) :
    ∀ x ∈ l.dropWhile (fun y => decide (y.2.1 ≤ t)), ¬ (x.2.1 ≤ t) := by
  induction l with
  | nil => intro x hx; cases hx
  | cons y ys ih =>
    rcases List.sorted_cons.mp hs with ⟨hy, hs'⟩
    intro x hx
    by_cases hyt : y.2.1 ≤ t
    · rw [List.dropWhile_cons_of_pos (by simpa using hyt)] at hx
      exact ih hs' x hx
    · rw [List.dropWhile_cons_of_neg (by simpa using hyt)] at hx
      rcases List.mem_cons.mp hx with h1 | h1
      · subst h1; exact hyt
      · have := hy x h1
        unfold timeLe at this
        omega

/-- Consolidation at `t` ignores emissions stamped after `t`. -/
theorem cardNetAt_late {V : Type} [DecidableEq V] (t : Nat) (v : V)
    (out : List ((V × V) × Nat × Int))
    (h : ∀ y ∈ out, ¬ (y.2.1 ≤ t)) : cardNetAt t v out = 0 := by
  unfold cardNetAt
  have : out.filter (fun x => decide (x.1.2 = v) && decide (x.2.1 ≤ t)) = [] := by
    rw [List.filter_eq_nil_iff]
    intro a ha
    simp [h a ha]
  rw [this]
  rfl

/-- Consolidation at `t` sees every emission stamped at or before `t`. -/
theorem cardNetAt_early {V : Type} [DecidableEq V] (t : Nat) (v : V)
    (out : List ((V × V) × Nat × Int))
    (h : ∀ y ∈ out, y.2.1 ≤ t) : cardNetAt t v out = cardNetAll v out := by
  have hf : out.filter (fun x => decide (x.1.2 = v) && decide (x.2.1 ≤ t)) =
      out.filter (fun x => decide (x.1.2 = v)) :=
    List.filter_congr (fun x hx => by simp [h x hx])
  unfold cardNetAt cardNetAll
  rw [hf]

/-- C3: per entity key, `cardinality_one` sorts the batch's
`(value, time, diff)` triples by ascending time and folds the per-key
state machine over them: an insertion on empty state emits `+(e, v)`
and stores `v`, an insertion over stored `v_old` emits `-(e, v_old)`
and `+(e, v)`, a retraction over stored `v_old` emits `-(e, v_old)` and
clears the state; consequently, at every timestamp the consolidated
output denotes the per-key state reached there — at most one `(e, v)`
pair. -/
theorem cardinalityOne_sorted_state_machine_at_most_one :
    ∀ {V : Type} [DecidableEq V] (e : V) (batch : List (V × Nat × Int))
      (sFin : Option V) (out : List ((V × V) × Nat × Int)),
    cardinalityOneKey e batch = .ok (sFin, out) →
    List.Sorted timeLe (sortBatch batch) ∧
    cardinalityOneKey e batch = cardRun e none (sortBatch batch) ∧
    (∀ (v : V) (ts : Nat) (d : Int), 0 < d →
      cardStep e none (v, ts, d) = .ok (some v, [((e, v), ts, 1)])) ∧
    (∀ (old v : V) (ts : Nat) (d : Int), 0 < d →
      cardStep e (some old) (v, ts, d) =
        .ok (some v, [((e, old), ts, -1), ((e, v), ts, 1)])) ∧
    (∀ (old v : V) (ts : Nat) (d : Int), d < 0 →
      cardStep e (some old) (v, ts, d) = .ok (none, [((e, old), ts, -1)])) ∧
    (∀ t : Nat, ∃ s : Option V, ∀ v : V, cardNetAt t v out = stateInd s v) := by
  intro V _ e batch sFin out h
  refine ⟨List.sorted_insertionSort timeLe batch, rfl,
    ?_, ?_, ?_, ?_⟩
  · intro v ts d hd; simp [cardStep, hd]
  · intro old v ts d hd; simp [cardStep, hd]
  · intro old v ts d hd
    have : ¬ 0 < d := by omega
    simp [cardStep, this]
  · intro t
    have hsorted : List.Sorted timeLe (sortBatch batch) :=
      List.sorted_insertionSort timeLe batch
    have hsplit :
        (sortBatch batch).takeWhile (fun y => decide (y.2.1 ≤ t)) ++
          (sortBatch batch).dropWhile (fun y => decide (y.2.1 ≤ t)) =
          sortBatch batch :=
      List.takeWhile_append_dropWhile _ _
    have h' : cardRun e none
        ((sortBatch batch).takeWhile (fun y => decide (y.2.1 ≤ t)) ++
         (sortBatch batch).dropWhile (fun y => decide (y.2.1 ≤ t))) =
        .ok (sFin, out) := by
      rw [hsplit]; exact h
    rcases cardRun_append e none _ _ sFin out h' with ⟨s₁, o₁, o₂, h1, h2, ho⟩
    refine ⟨s₁, fun v => ?_⟩
    have hsum : cardNetAt t v out = cardNetAt t v o₁ + cardNetAt t v o₂ := by
      rw [ho]
      unfold cardNetAt
      simp [List.filter_append]
    have hearly : ∀ y ∈ o₁, y.2.1 ≤ t := by
      intro y hy
      rcases cardRun_times e none _ s₁ o₁ h1 y hy with ⟨x, hx, hxy⟩
      have := List.mem_takeWhile_imp hx
      simp at this
      omega
    have hlate : ∀ y ∈ o₂, ¬ (y.2.1 ≤ t) := by
      intro y hy
      rcases cardRun_times e s₁ _ sFin o₂ h2 y hy with ⟨x, hx, hxy⟩
      have := sorted_dropWhile_time t (sortBatch batch) hsorted x hx
      omega
    rw [hsum, cardNetAt_early t v o₁ hearly, cardNetAt_late t v o₂ hlate,
      cardRun_net e none _ s₁ o₁ h1 v]
    simp [stateInd]

/-- Closed instance of
`cardinalityOne_sorted_state_machine_at_most_one` at the S5 batch:
its sorted form is time-sorted. -/
theorem cardinalityOne_sorted_witness :
    List.Sorted timeLe (sortBatch [((7 : Nat), 0, (1 : Int)), (8, 1, 1)]) :=
  (cardinalityOne_sorted_state_machine_at_most_one 5 [(7, 0, 1), (8, 1, 1)]
    (some 8) [((5, 7), 0, 1), ((5, 7), 1, -1), ((5, 8), 1, 1)] (by decide)).1

/-- C9 (code defect witness): on a 256-record file with one worker and
an `Eid` schema column, the source emits only 255 tuples — the record
consumed when the activation fuel reaches zero is discarded without
being processed (`src/sources/csv_file.rs` lines 85-88 decrement and
test the fuel *after* `iterator.next()` has consumed the record but
*before* the record is handled).  A 255-record file is emitted in
full, exactly one tuple per schema entry per record. -/
theorem csv_source_fuel_drops_record :
    csvSource (fun _ => some 7) (fun _ => none) [(0, Value.eid 0)] 0 1
      (List.replicate 256 ["r"]) =
      .ok (List.replicate 255 (0, ((Value.eid 7, Value.eid 7), 0, 1))) ∧
    csvSource (fun _ => some 7) (fun _ => none) [(0, Value.eid 0)] 0 1
      (List.replicate 255 ["r"]) =
      .ok (List.replicate 255 (0, ((Value.eid 7, Value.eid 7), 0, 1))) ∧
    (List.replicate 256 (["r"] : List String)).length = 256 := by
  refine ⟨?_, ?_, ?_⟩ <;> · set_option maxRecDepth 10000 in decide

/-! ## Length and membership lemmas for join outputs -/

theorem selectVar_isSome {vars : List Var} {row : List Value} {v : Var}
    (hlen : row.length = vars.length) (hv : v ∈ vars) :
    ∃ x, selectVar vars row v = some x := by
  induction vars generalizing row with
  | nil => cases hv
  | cons w ws ih =>
    rcases row with _ | ⟨x, xs⟩
    · cases hlen
    · by_cases hw : w = v
      · exact ⟨x, by simp [selectVar, hw]⟩
      · have hv' : v ∈ ws := by
          rcases List.mem_cons.mp hv with h | h
          · exact absurd h.symm hw
          · exact h
        rcases ih (Nat.succ.inj hlen) hv' with ⟨y, hy⟩
        exact ⟨y, by simp [selectVar, hw, hy]⟩

theorem keyOf_cons (vars : List Var) (v : Var) (vs : List Var)
    (row : List Value) :
    keyOf vars (v :: vs) row =
      match selectVar vars row v with
      | none => keyOf vars vs row
      | some x => x :: keyOf vars vs row := by
  cases h : selectVar vars row v <;> simp [keyOf, List.filterMap_cons, h]

theorem keyOf_length {vars target : List Var} {row : List Value}
    (hlen : row.length = vars.length) (hsub : ∀ v ∈ target, v ∈ vars) :
    (keyOf vars target row).length = target.length := by
  induction target with
  | nil => rfl
  | cons v vs ih =>
    rcases selectVar_isSome hlen (hsub v (List.mem_cons_self v vs)) with ⟨x, hx⟩
    have ih' := ih (fun u hu => hsub u (List.mem_cons_of_mem v hu))
    rw [keyOf_cons, hx]
    show (keyOf vars vs row).length + 1 = vs.length + 1
    rw [ih']

theorem remOf_length {vars target : List Var} {row : List Value}
    (hlen : row.length = vars.length) :
    (remOf vars target row).length =
      (vars.filter fun v => decide (v ∉ target)).length := by
  induction vars generalizing row with
  | nil => rfl
  | cons w ws ih =>
    rcases row with _ | ⟨x, xs⟩
    · cases hlen
    · by_cases hw : w ∉ target <;>
        simp [remOf, List.filter_cons, hw] at ih ⊢ <;>
        exact ih (Nat.succ.inj hlen)

theorem tuplesByVariables_mem {c : CollectionRelation} {target : List Var}
    {q : (List Value × List Value) × Int}
    (hq : q ∈ tuplesByVariables c target) :
    ∃ rd ∈ c.tuples,
      q = ((keyOf c.vars target rd.1, remOf c.vars target rd.1), rd.2) := by
  rcases List.mem_map.mp hq with ⟨rd, hrd, hq'⟩
  exact ⟨rd, hrd, hq'.symm⟩

theorem joinKeyed_mem {β κ : Type} [DecidableEq κ] {key : β → κ}
    {out : β → β → List Value} {L R : List (β × Int)} {x : List Value × Int}
    (hx : x ∈ joinKeyed key out L R) :
    ∃ p ∈ L, ∃ q ∈ R, key p.1 = key q.1 ∧ x = (out p.1 q.1, p.2 * q.2) := by
  rcases List.mem_flatMap.mp hx with ⟨p, hp, hx1⟩
  rcases List.mem_flatMap.mp hx1 with ⟨q, hq, hx2⟩
  by_cases hk : key p.1 = key q.1
  · rw [if_pos hk, List.mem_singleton] at hx2
    exact ⟨p, hp, q, hq, hk, hx2⟩
  · rw [if_neg hk] at hx2
    cases hx2

/-- C7 amended: the `Join::collection_collection` output has a
duplicate-free variable list provided the target list and each child's
list are duplicate-free and the children share no variable outside the
target list; and (unconditionally given per-child arity) the length of
the variable list equals the arity of every output tuple. -/
theorem collection_collection_invariants_amended :
    ∀ (T : List Var) (l r : CollectionRelation),
    T.Nodup → l.vars.Nodup → r.vars.Nodup →
    (∀ v ∈ T, v ∈ l.vars) → (∀ v ∈ T, v ∈ r.vars) →
    (∀ v, v ∈ l.vars → v ∈ r.vars → v ∈ T) →
    (∀ p ∈ l.tuples, p.1.length = l.vars.length) →
    (∀ p ∈ r.tuples, p.1.length = r.vars.length) →
    (collection_collection T l r).vars.Nodup ∧
    (∀ p ∈ (collection_collection T l r).tuples,
      p.1.length = (collection_collection T l r).vars.length) := by
  intro T l r hT hl hr hTl hTr hshared harl harr
  constructor
  · show (T ++ (l.vars.filter fun v => decide (v ∉ T))
      ++ (r.vars.filter fun v => decide (v ∉ T))).Nodup
    rw [List.append_assoc, List.nodup_append]
    refine ⟨hT, ?_, ?_⟩
    · rw [List.nodup_append]
      refine ⟨hl.filter _, hr.filter _, ?_⟩
      intro a hal har
      rcases List.mem_filter.mp hal with ⟨hav, hat⟩
      rcases List.mem_filter.mp har with ⟨hav', _⟩
      have : a ∈ T := hshared a hav hav'
      simp at hat
      exact hat this
    · intro a haT hamem
      rcases List.mem_append.mp hamem with hal | har
      · rcases List.mem_filter.mp hal with ⟨_, hat⟩
        simp at hat
        exact hat haT
      · rcases List.mem_filter.mp har with ⟨_, hat⟩
        simp at hat
        exact hat haT
  · intro p hp
    have hp' : p ∈ joinKeyed Prod.fst (fun a b => a.1 ++ a.2 ++ b.2)
        (tuplesByVariables l T) (tuplesByVariables r T) := hp
    rcases joinKeyed_mem hp' with ⟨a, ha, b, hb, _, hpv⟩
    rcases tuplesByVariables_mem ha with ⟨rda, hrda, ha'⟩
    rcases tuplesByVariables_mem hb with ⟨rdb, hrdb, hb'⟩
    subst ha'
    subst hb'
    subst hpv
    show (keyOf l.vars T rda.1 ++ remOf l.vars T rda.1
      ++ remOf r.vars T rdb.1).length = _
    have h1 := keyOf_length (harl rda hrda) hTl
    have h2 := @remOf_length l.vars T rda.1 (harl rda hrda)
    have h3 := @remOf_length r.vars T rdb.1 (harr rdb hrdb)
    simp [collection_collection, h1, h2, h3, Nat.add_assoc]

/-- Closed instance of `collection_collection_invariants_amended` at a
pair of arity-2 children sharing only the target variable. -/
theorem collection_collection_invariants_amended_witness :
    (collection_collection [0]
      { vars := [0, 1], tuples := [([.eid 1, .eid 5], 1)] }
      { vars := [0, 2], tuples := [([.eid 1, .eid 6], 1)] }).vars.Nodup :=
  (collection_collection_invariants_amended [0]
    { vars := [0, 1], tuples := [([.eid 1, .eid 5], 1)] }
    { vars := [0, 2], tuples := [([.eid 1, .eid 6], 1)] }
    (by decide) (by decide) (by decide) (by decide) (by decide)
    (by decide) (by decide) (by decide)).1

/-! ## Join commutativity -/

theorem swapCols_append {α : Type} {n m : Nat} (a b c : List α)
    (ha : a.length = n) (hb : b.length = m) :
    swapCols n m (a ++ b ++ c) = a ++ c ++ b := by
  unfold swapCols
  have h1 : List.take n (a ++ b ++ c) = a := by
    rw [List.append_assoc]
    exact List.take_left' ha
  have h2 : List.drop (n + m) (a ++ b ++ c) = c := by
    have : (a ++ b).length = n + m := by simp [ha, hb]
    exact List.drop_left' this
  have h3 : List.drop n (a ++ b ++ c) = b ++ c := by
    rw [List.append_assoc]
    exact List.drop_left' ha
  rw [h1, h2, h3, List.take_left' hb]

theorem swapCols_zero {α : Type} (l : List α) : swapCols 0 0 l = l := by
  simp [swapCols]

theorem remainderSwap_zero (p : List Value × Int) :
    remainderSwap 0 0 p = p := by
  cases p
  simp [remainderSwap, swapCols_zero]

/-- The multiset of a keyed join is the multiset of the
arguments-swapped keyed join with the payload blocks swapped, whenever
the output functions are intertwined by `swapCols` on matching keys. -/
theorem joinKeyed_swap {β κ : Type} [DecidableEq κ] (key : β → κ)
    (out outSw : β → β → List Value) (k lb : Nat) (L R : List (β × Int))
    (h : ∀ p ∈ L, ∀ q ∈ R, key p.1 = key q.1 →
      out p.1 q.1 = swapCols k lb (outSw q.1 p.1)) :
    (↑(joinKeyed key out L R) : Multiset (List Value × Int)) =
      Multiset.map (remainderSwap k lb) ↑(joinKeyed key outSw R L) := by
  unfold joinKeyed
  rw [← Multiset.coe_bind L, ← Multiset.coe_bind R]
  rw [Multiset.map_bind]
  have hL : ∀ p ∈ L,
      (↑(R.flatMap fun q =>
        if key p.1 = key q.1 then [(out p.1 q.1, p.2 * q.2)] else [])
        : Multiset (List Value × Int)) =
      (↑R : Multiset (β × Int)).bind fun q =>
        ↑(if key p.1 = key q.1 then [(out p.1 q.1, p.2 * q.2)] else []) := by
    intro p _
    rw [Multiset.coe_bind]
  rw [Multiset.bind_congr (fun p hp => hL p (Multiset.mem_coe.mp hp))]
  have hR : ∀ q ∈ (↑R : Multiset (β × Int)),
      Multiset.map (remainderSwap k lb)
        (↑(L.flatMap fun p =>
          if key q.1 = key p.1 then [(outSw q.1 p.1, q.2 * p.2)] else [])) =
      (↑L : Multiset (β × Int)).bind fun p =>
        Multiset.map (remainderSwap k lb)
          ↑(if key q.1 = key p.1 then [(outSw q.1 p.1, q.2 * p.2)] else []) := by
    intro q _
    rw [← Multiset.coe_bind L, Multiset.map_bind]
  rw [Multiset.bind_congr hR]
  rw [Multiset.bind_bind]
  apply Multiset.bind_congr
  intro q hq
  apply Multiset.bind_congr
  intro p hp
  have hpL : p ∈ L := Multiset.mem_coe.mp hp
  have hqR : q ∈ R := Multiset.mem_coe.mp hq
  by_cases hk : key p.1 = key q.1
  · rw [if_pos hk, if_pos hk.symm]
    have := h p hpL q hqR hk
    simp [remainderSwap, ← this, Int.mul_comm q.2 p.2]
  · rw [if_neg hk, if_neg (fun hc => hk hc.symm)]
    rfl

/-- `joinRows` is `joinKeyed` with the trace key and the three-column
output row. -/
theorem joinRows_eq_joinKeyed (L R : Trace) :
    joinRows L R =
      joinKeyed (fun kv : Value × Value => kv.1)
        (fun p q => [p.1, p.2, q.2]) L R := rfl

/-- Unfolding `attribute_attribute` when the left side selection aborts. -/
theorem attribute_attribute_err_left {ctx : Ctx} {t : Var}
    {l r : AttributeBinding} {m : String}
    (h : sideArrangement ctx t l = .error m) :
    attribute_attribute ctx t l r = .error m := by
  unfold attribute_attribute
  rw [h]
  rfl

/-- Unfolding `attribute_attribute` when the left side selection
succeeds and the right aborts. -/
theorem attribute_attribute_err_right {ctx : Ctx} {t : Var}
    {l r : AttributeBinding} {o1 : Var} {tr1 : Trace} {m : String}
    (h1 : sideArrangement ctx t l = .ok (o1, tr1))
    (h2 : sideArrangement ctx t r = .error m) :
    attribute_attribute ctx t l r = .error m := by
  unfold attribute_attribute
  rw [h1, except_ok_bind, h2]
  rfl

/-- Unfolding `attribute_attribute` when both side selections succeed. -/
theorem attribute_attribute_ok {ctx : Ctx} {t : Var}
    {l r : AttributeBinding} {o1 o2 : Var} {tr1 tr2 : Trace}
    (h1 : sideArrangement ctx t l = .ok (o1, tr1))
    (h2 : sideArrangement ctx t r = .ok (o2, tr2)) :
    attribute_attribute ctx t l r =
      .ok { vars := [t, o1, o2], tuples := joinRows tr1 tr2 } := by
  unfold attribute_attribute
  rw [h1, except_ok_bind, h2]
  rfl

/-- C8: for any two compatible carriers and any non-empty target list,
the dispatch of `Join::implement` commutes up to reordering of the
remainder columns: either both orders abort, or the two output
collections agree as multisets after swapping the two remainder blocks
of the second (schema and tuples consistently). -/
theorem join_commutative_up_to_remainder_swap :
    ∀ (ctx : Ctx) (T : List Var) (A B : Implemented),
    T ≠ [] → compatible T A → compatible T B →
    joinOutcomesMatch (joinImplemented ctx T A B) (joinImplemented ctx T B A) := by
  intro ctx T A B hT hA hB
  rcases A with a1 | c1
  · rcases B with a2 | c2
    · rcases T with _ | ⟨t, ts⟩
      · exact absurd rfl hT
      rcases ts with _ | ⟨u, us⟩
      · -- |T| = 1 : the attribute-by-attribute join
        rcases h1 : sideArrangement ctx t a1 with m1 | ⟨o1, tr1⟩
        · rcases h2 : sideArrangement ctx t a2 with m2 | ⟨o2, tr2⟩
          · exact Or.inl ⟨⟨m1, by
              show (attribute_attribute ctx t a1 a2).map _ = _
              rw [attribute_attribute_err_left h1]; rfl⟩,
              ⟨m2, by
              show (attribute_attribute ctx t a2 a1).map _ = _
              rw [attribute_attribute_err_left h2]; rfl⟩⟩
          · exact Or.inl ⟨⟨m1, by
              show (attribute_attribute ctx t a1 a2).map _ = _
              rw [attribute_attribute_err_left h1]; rfl⟩,
              ⟨m1, by
              show (attribute_attribute ctx t a2 a1).map _ = _
              rw [attribute_attribute_err_right h2 h1]; rfl⟩⟩
        · rcases h2 : sideArrangement ctx t a2 with m2 | ⟨o2, tr2⟩
          · exact Or.inl ⟨⟨m2, by
              show (attribute_attribute ctx t a1 a2).map _ = _
              rw [attribute_attribute_err_right h1 h2]; rfl⟩,
              ⟨m2, by
              show (attribute_attribute ctx t a2 a1).map _ = _
              rw [attribute_attribute_err_left h2]; rfl⟩⟩
          · refine Or.inr ⟨{ vars := [t, o1, o2], tuples := joinRows tr1 tr2 },
              { vars := [t, o2, o1], tuples := joinRows tr2 tr1 }, 1, 1, ?_, ?_, ?_, ?_⟩
            · show (attribute_attribute ctx t a1 a2).map _ = _
              rw [attribute_attribute_ok h1 h2]
              rfl
            · show (attribute_attribute ctx t a2 a1).map _ = _
              rw [attribute_attribute_ok h2 h1]
              rfl
            · rfl
            · show (↑(joinRows tr1 tr2) : Multiset (List Value × Int)) =
                Multiset.map (remainderSwap 1 1) ↑(joinRows tr2 tr1)
              rw [joinRows_eq_joinKeyed, joinRows_eq_joinKeyed]
              apply joinKeyed_swap
              intro p _ q _ hk
              have hk' : p.1.1 = q.1.1 := hk
              show [p.1.1, p.1.2, q.1.2] = swapCols 1 1 [q.1.1, q.1.2, p.1.2]
              have hsw : swapCols 1 1 [q.1.1, q.1.2, p.1.2] =
                  [q.1.1, p.1.2, q.1.2] :=
                swapCols_append [q.1.1] [q.1.2] [p.1.2] rfl rfl
              rw [hsw, hk']
      · rcases us with _ | _
        · exact Or.inl ⟨⟨"not implemented", rfl⟩, ⟨"not implemented", rfl⟩⟩
        · exact Or.inl
            ⟨⟨"Attribute<->Attribute joins can't target more than two variables.", rfl⟩,
             ⟨"Attribute<->Attribute joins can't target more than two variables.", rfl⟩⟩
    · -- Attribute × Collection: both orders produce the same outcome
      rcases h : collection_attribute ctx T c2 a1 with m | rel
      · exact Or.inl ⟨⟨m, by show (collection_attribute ctx T c2 a1).map _ = _; rw [h]; rfl⟩,
          ⟨m, by show (collection_attribute ctx T c2 a1).map _ = _; rw [h]; rfl⟩⟩
      · refine Or.inr ⟨rel, rel, 0, 0, ?_, ?_, ?_, ?_⟩
        · show (collection_attribute ctx T c2 a1).map _ = _
          rw [h]
          rfl
        · show (collection_attribute ctx T c2 a1).map _ = _
          rw [h]
          rfl
        · rw [swapCols_zero]
        · rw [show remainderSwap 0 0 = id from funext remainderSwap_zero,
            Multiset.map_id]
  · rcases B with a2 | c2
    · rcases h : collection_attribute ctx T c1 a2 with m | rel
      · exact Or.inl ⟨⟨m, by show (collection_attribute ctx T c1 a2).map _ = _; rw [h]; rfl⟩,
          ⟨m, by show (collection_attribute ctx T c1 a2).map _ = _; rw [h]; rfl⟩⟩
      · refine Or.inr ⟨rel, rel, 0, 0, ?_, ?_, ?_, ?_⟩
        · show (collection_attribute ctx T c1 a2).map _ = _
          rw [h]
          rfl
        · show (collection_attribute ctx T c1 a2).map _ = _
          rw [h]
          rfl
        · rw [swapCols_zero]
        · rw [show remainderSwap 0 0 = id from funext remainderSwap_zero,
            Multiset.map_id]
    · rcases hA with ⟨har1, hsub1⟩
      rcases hB with ⟨har2, hsub2⟩
      refine Or.inr ⟨collection_collection T c1 c2, collection_collection T c2 c1,
        T.length, (c2.vars.filter fun v => decide (v ∉ T)).length,
        rfl, rfl, ?_, ?_⟩
      · show (T ++ _ ++ _ : List Var) = swapCols _ _ (T ++ _ ++ _)
        rw [swapCols_append T
          (c2.vars.filter fun v => decide (v ∉ T))
          (c1.vars.filter fun v => decide (v ∉ T)) rfl rfl]
      · show (↑(joinKeyed Prod.fst (fun p q => p.1 ++ p.2 ++ q.2)
            (tuplesByVariables c1 T) (tuplesByVariables c2 T))
          : Multiset (List Value × Int)) =
          Multiset.map (remainderSwap T.length
            ((c2.vars.filter fun v => decide (v ∉ T)).length))
            ↑(joinKeyed Prod.fst (fun p q => p.1 ++ p.2 ++ q.2)
              (tuplesByVariables c2 T) (tuplesByVariables c1 T))
        apply joinKeyed_swap
        intro p hp q hq hk
        rcases tuplesByVariables_mem hq with ⟨rd, hrd, hq'⟩
        have hklen : q.1.1.length = T.length := by
          rw [hq']
          exact keyOf_length (har2 rd hrd) hsub2
        have hrlen : q.1.2.length =
            (c2.vars.filter fun v => decide (v ∉ T)).length := by
          rw [hq']
          exact remOf_length (har2 rd hrd)
        have hk' : p.1.1 = q.1.1 := hk
        show p.1.1 ++ p.1.2 ++ q.1.2 =
          swapCols T.length ((c2.vars.filter fun v => decide (v ∉ T)).length)
            (q.1.1 ++ q.1.2 ++ p.1.2)
        rw [swapCols_append q.1.1 q.1.2 p.1.2 hklen hrlen, hk']

/-- Closed instance of `join_commutative_up_to_remainder_swap` for two
attribute carriers over the `ctxA` catalog. -/
theorem join_commutative_up_to_remainder_swap_witness :
    joinOutcomesMatch
      (joinImplemented ctxA [0]
        (.attribute { vars := (0, 1), source_attribute := "a" })
        (.attribute { vars := (0, 2), source_attribute := "a" }))
      (joinImplemented ctxA [0]
        (.attribute { vars := (0, 2), source_attribute := "a" })
        (.attribute { vars := (0, 1), source_attribute := "a" })) :=
  join_commutative_up_to_remainder_swap ctxA [0]
    (.attribute { vars := (0, 1), source_attribute := "a" })
    (.attribute { vars := (0, 2), source_attribute := "a" })
    (by decide) (by decide) (by decide)


end DDlow
